import Mathlib

/-!
Shallow embedding of the tapered-beam touch pipeline:
`src/filters.py` (repeated_touches, double_electrode) and
`src/process_touches.py` (sample decoder, touch extractor, short-duration
handling, batch driver).  Times and durations are modelled as rationals,
channels as naturals; the numpy rows `[index, channel, start, duration]`
become the `TouchEvent` structure (the index column is written only after
filtering and never read by the filters, so it is omitted).  The numpy
`argsort` on the small per-trial arrays behaves as a stable sort and is
modelled by stable insertion sort.
-/

/-- A touch event: channel, start time (seconds, relative to the first
sample) and duration (seconds). -/
structure TouchEvent where
  channel : ℕ
  start : ℚ
  duration : ℚ
  deriving DecidableEq, Repr, Inhabited

/-- Stable insertion of an event into a list ascending by start time. -/
def insertT (e : TouchEvent) : List TouchEvent → List TouchEvent
  | [] => [e]
  | x :: xs => if e.start ≤ x.start then e :: x :: xs else x :: insertT e xs

/-- Stable ascending sort by start time (model of `np.argsort` on column 2). -/
def sortByTime : List TouchEvent → List TouchEvent
  | [] => []
  | x :: xs => insertT x (sortByTime xs)

/-- Stable insertion into an ascending list of naturals. -/
def insertNat (n : ℕ) : List ℕ → List ℕ
  | [] => [n]
  | x :: xs => if n ≤ x then n :: x :: xs else x :: insertNat n xs

/-- Ascending sort of a list of naturals (model of `np.unique` ordering). -/
def sortNat : List ℕ → List ℕ
  | [] => []
  | x :: xs => insertNat x (sortNat xs)

/-- Number of touches on channel `c`. -/
def channelCount (touches : List TouchEvent) (c : ℕ) : ℕ :=
  (touches.filter (fun e => e.channel == c)).length

/-- Channels carrying more than one touch, in ascending order
(filters.py lines 22-23, `np.unique` with counts). -/
def repeatedChannels (touches : List TouchEvent) : List ℕ :=
  (sortNat ((touches.map (fun e => e.channel)).dedup)).filter
    (fun c => 2 ≤ channelCount touches c)

/-- Result of one pass of the inner row loop of `repeated_touches` over one
channel subsequence (held in reverse-chronological order): either the first
adjacent pair within the window was resolved by deleting one event, or the
scan reached the last pair without deleting (the `stop` flag). -/
inductive ScanResult where
  | deleted (e : TouchEvent) (rest : List TouchEvent)
  | stop
  deriving DecidableEq, Repr

/-- One pass of the row loop of `repeated_touches` (filters.py lines 51-86).
`sub` is in reverse-chronological order, so in `a :: b :: rest` the event
`a` starts at or after `b`. -/
def scanStep (w : ℚ) : List TouchEvent → ScanResult
  | a :: b :: rest =>
    if a.start - b.start ≤ w then
      if a.duration < b.duration ∨ a.channel = 47 then ScanResult.deleted a (b :: rest)
      else ScanResult.deleted b (a :: rest)
    else
      match scanStep w (b :: rest) with
      | ScanResult.deleted e rest' => ScanResult.deleted e (a :: rest')
      | ScanResult.stop => ScanResult.stop
  | _ => ScanResult.stop

/-- The while-loop of `repeated_touches` for one channel (filters.py lines
45-86), fuelled: one touch is deleted per iteration, so `sub.length` steps
suffice.  Returns (events this loop appends to `no_rt`, deleted events in
deletion order). -/
def rtLoop : ℕ → ℚ → List TouchEvent → List TouchEvent × List TouchEvent
  | 0, _, _ => ([], [])
  | fuel + 1, w, sub =>
    if sub.length ≤ 1 then ([], [])
    else
      match scanStep w sub with
      | ScanResult.stop => (sub, [])
      | ScanResult.deleted e rest =>
        if rest.length < 2 then (rest, [e])
        else
          let p := rtLoop fuel w rest
          (p.1, e :: p.2)

/-- Run the per-channel while-loop with enough fuel. -/
def processChannel (w : ℚ) (sub : List TouchEvent) :
    List TouchEvent × List TouchEvent :=
  rtLoop sub.length w sub

/-- filters.py `repeated_touches`: collapse same-channel touches whose start
times are within `w` of each other; returns (survivors, deleted), both
re-sorted by start time. -/
def repeated_touches (touches : List TouchEvent) (w : ℚ) :
    List TouchEvent × List TouchEvent :=
  let chans := repeatedChannels touches
  let no_rt := touches.filter (fun e => !(decide (e.channel ∈ chans)))
  let rt := touches.filter (fun e => decide (e.channel ∈ chans))
  let rtDesc := (sortByTime rt).reverse
  let parts := chans.map
    (fun c => processChannel w (rtDesc.filter (fun e => e.channel == c)))
  (sortByTime (no_rt ++ (parts.map Prod.fst).flatten),
   sortByTime ((parts.map Prod.snd).flatten))

/-- The adjacency guard of `double_electrode` (filters.py line 129), with the
literal Python semantics of `abs(ch_1-ch_2)==2 and (ch_1 and ch_2 not in
[0,47])`: truthiness of `ch_1` conjoined with list membership of `ch_2`. -/
def deGuard (ch1 ch2 : ℕ) : Bool :=
  (((ch1 : ℤ) - (ch2 : ℤ)).natAbs == 2) && (ch1 != 0) && !(ch2 == 0 || ch2 == 47)

/-- Touches of `rest` starting at or before 150 ms after `e`
(filters.py line 120). -/
def withinTime (e : TouchEvent) (rest : List TouchEvent) : List TouchEvent :=
  rest.filter (fun o => o.start ≤ e.start + 3 / 20)

/-- First index in `wt` whose channel passes the adjacency guard against
`e` (filters.py lines 126-129). -/
def findInner (e : TouchEvent) : List TouchEvent → Option ℕ
  | [] => none
  | o :: rest =>
    if deGuard e.channel o.channel then some 0
    else (findInner e rest).map (fun n => n + 1)

/-- First hit `(row, row2)` of the nested scan of `double_electrode`
(filters.py lines 116-129). -/
def findDE : List TouchEvent → Option (ℕ × ℕ)
  | [] => none
  | e :: rest =>
    match findInner e (withinTime e rest) with
    | some r2 => some (0, r2)
    | none => (findDE rest).map (fun p => (p.1 + 1, p.2))

/-- The while-loop of `double_electrode` (filters.py lines 111-152),
fuelled by the input length.  On a hit, the event recorded as deleted is
`within_time[row2]` while the event removed is `touches[row+row2+1]`,
exactly as in the source. -/
def deLoop : ℕ → List TouchEvent → List TouchEvent × List TouchEvent
  | 0, touches => (touches, [])
  | fuel + 1, touches =>
    match findDE touches with
    | none => (touches, [])
    | some (row, r2) =>
      let e := touches.getD row default
      let o := (withinTime e (touches.drop (row + 1))).getD r2 default
      if e.channel < o.channel then
        let p := deLoop fuel (touches.eraseIdx row)
        (p.1, e :: p.2)
      else
        let p := deLoop fuel (touches.eraseIdx (row + r2 + 1))
        (p.1, o :: p.2)

/-- filters.py `double_electrode`. -/
def double_electrode (touches : List TouchEvent) :
    List TouchEvent × List TouchEvent :=
  deLoop touches.length touches

/-- ROUND_HALF_UP quantisation to 3 decimal places. -/
def round3 (q : ℚ) : ℚ :=
  if q < 0 then -(((⌊-q * 1000 + 1 / 2⌋ : ℤ) : ℚ) / 1000)
  else ((⌊q * 1000 + 1 / 2⌋ : ℤ) : ℚ) / 1000

/-- One line of the log.txt audit trail (process_touches.py 86-100). -/
inductive LogEntry where
  | firstTouch (ch : ℕ)
  | warnShort (ch : ℕ) (time dur : ℚ)
  | delShort (ch : ℕ) (time dur thr : ℚ)
  | repeatedDel (ch : ℕ) (time dur : ℚ)
  | doubleDel (ch : ℕ) (time : ℚ) (pair : ℕ)
  deriving DecidableEq, Repr

/-- Python truthiness of `args.threshold` (None and 0.0 are both falsy). -/
def thresholdSet : Option ℚ → Bool
  | none => false
  | some t => t != 0

/-- The `threshold` variable of process_touches.py (lines 64-74). -/
def effThreshold (cfg : Option ℚ) : ℚ :=
  match cfg with
  | some t => if t != 0 then t else 1 / 10
  | none => 1 / 10

/-- The duration threshold as the claim words it (for comparison with the
code): the explicitly configured value when one was given, else the 0.1 s
default. -/
def claimThreshold (cfg : Option ℚ) : ℚ :=
  match cfg with
  | some t => t
  | none => 1 / 10

/-- The touch-release branch of the extractor (process_touches.py lines
164-178): whether the completed touch is kept, and what is logged. -/
def handle_release (cfg : Option ℚ) (ch : ℕ) (t0 dur : ℚ) : Bool × List LogEntry :=
  if dur < effThreshold cfg ∧ 0 < ch ∧ ch < 47 then
    if thresholdSet cfg then
      (false, [LogEntry.delShort ch (round3 t0) (round3 dur) (effThreshold cfg)])
    else
      (true, [LogEntry.warnShort ch (round3 t0) (round3 dur)])
  else (true, [])

/-- Read channel `ch` of a decoded row. -/
def getBit (bits : List Bool) (ch : ℕ) : Bool := bits.getD ch false

/-- Mutable state of the extraction scan: the open-touch map `temp`, the
accumulated touch rows, and the accumulated log lines. -/
structure ScanState where
  temp : ℕ → Option ℚ
  touches : List TouchEvent
  logs : List LogEntry

/-- Per-channel body of the scan loop (process_touches.py lines 150-178).
Returns `none` on the KeyError the Python code raises when a release is
seen for a channel absent from `temp`. -/
def stepChannel (cfg : Option ℚ) (row : ℕ) (t : ℚ) (prev cur : Bool) (ch : ℕ)
    (st : ScanState) : Option ScanState :=
  if cur && !prev then
    some { temp := fun c => if c = ch then some t else st.temp c,
           touches := st.touches,
           logs := if row == 1 && ch != 47 then st.logs ++ [LogEntry.firstTouch ch]
                   else st.logs }
  else if !cur && prev then
    match st.temp ch with
    | none => none
    | some t0 =>
      let dur := t - t0
      let r := handle_release cfg ch t0 dur
      some { temp := fun c => if c = ch then none else st.temp c,
             touches := if r.1 then st.touches ++ [⟨ch, t0, dur⟩] else st.touches,
             logs := st.logs ++ r.2 }
  else some st

/-- Channel loop over one pair of adjacent rows. -/
def stepRow (cfg : Option ℚ) (nch row : ℕ) (t : ℚ) (prevBits curBits : List Bool)
    (st : ScanState) : Option ScanState :=
  (List.range nch).foldlM
    (fun s ch => stepChannel cfg row t (getBit prevBits ch) (getBit curBits ch) ch s) st

/-- Row loop of the extractor (process_touches.py lines 148-178). -/
def scanRows (cfg : Option ℚ) (nch : ℕ) (start : ℚ) :
    ℕ → List Bool → List (ℚ × List Bool) → ScanState → Option ScanState
  | _, _, [], st => some st
  | row, prevBits, r :: rest, st =>
    match stepRow cfg nch row (r.1 - start) prevBits r.2 st with
    | none => none
    | some st1 => scanRows cfg nch start (row + 1) r.2 rest st1

/-- The full extraction scan over decoded rows: emits the touch list sorted
by start time together with the log lines; `none` models the KeyError. -/
def extract_touches (cfg : Option ℚ) (nch : ℕ) (rows : List (ℚ × List Bool)) :
    Option (List TouchEvent × List LogEntry) :=
  match rows with
  | [] => some ([], [])
  | r0 :: rest =>
    (scanRows cfg nch r0.1 1 r0.2 rest ⟨fun _ => none, [], []⟩).map
      (fun st => (sortByTime st.touches, st.logs))

/-- Decode one sensor mask into 12 booleans, least-significant bit first
(process_touches.py lines 129-133: 12-digit binary string, reversed). -/
def decodeMask (m : ℕ) : List Bool :=
  (List.range 12).map (fun b => m / 2 ^ b % 2 == 1)

/-- Decode one raw row: concatenate per-sensor bits in sensor order, so
channel `12*s + b` is bit `b` of sensor `s`. -/
def decodeRow (masks : List ℕ) : List Bool := (masks.map decodeMask).flatten

/-- Build a 12-bit mask from 12 booleans, least-significant first. -/
def encodeRow (bits : List Bool) : ℕ :=
  bits.foldr (fun b acc => (if b then 1 else 0) + 2 * acc) 0

/-- One raw input file: name and rows of (timestamp, sensor masks). -/
structure FileData where
  name : String
  rows : List (ℚ × List ℕ)
  deriving Repr

/-- Command-line configuration: optional duration threshold, no-filter flag
(mutually exclusive in argparse). -/
structure Config where
  threshold : Option ℚ
  no_filter : Bool
  deriving Repr

/-- Number of MPR121 sensors, from the column count of the raw table. -/
def numSensors (f : FileData) : ℕ := ((f.rows.headD (0, [])).2).length

/-- Check of process_touches.py line 140: any touched bit in the first row. -/
def firstRowTouched (nch : ℕ) (rows : List (ℚ × List Bool)) : Bool :=
  match rows with
  | [] => false
  | r0 :: _ => (List.range nch).any (fun ch => getBit r0.2 ch)

/-- Process one raw file (process_touches.py lines 103-215): fatal row-count
and first-row checks, decode, extract, optional filters; produces the
surviving events and the accumulated log lines, or the fatal message. -/
def processFile (cfg : Config) (f : FileData) :
    Except String (List TouchEvent × List LogEntry) :=
  if f.rows.length ≤ 1 then
    Except.error ("Error processing " ++ f.name ++ ": No touches detected.")
  else
    let nch := 12 * numSensors f
    let newdata := f.rows.map (fun r => (r.1, decodeRow r.2))
    if firstRowTouched nch newdata then
      Except.error ("Error processing " ++ f.name ++
        ": One or more sensors were touched during start of data collection.")
    else
      match extract_touches cfg.threshold nch newdata with
      | none => Except.error ("Error processing " ++ f.name ++ ": KeyError")
      | some (touches, logs) =>
        if cfg.no_filter then Except.ok (touches, logs)
        else
          let r1 := repeated_touches touches (3 / 20)
          let r2 := double_electrode r1.1
          Except.ok (r2.1,
            logs ++ r1.2.map (fun e =>
                      LogEntry.repeatedDel e.channel (round3 e.start) (round3 e.duration))
                 ++ r2.2.map (fun e =>
                      LogEntry.doubleDel e.channel (round3 e.start) (e.channel + 2)))

/-- The batch loop over the file list (process_touches.py line 103): a fatal
error calls sys.exit(1), which stops the whole run, so files after the
failing one are not processed.  Returns the per-file outputs produced before
the stop and the fatal message, if any. -/
def processBatch (cfg : Config) :
    List FileData → List (String × (List TouchEvent × List LogEntry)) × Option String
  | [] => ([], none)
  | f :: fs =>
    match processFile cfg f with
    | Except.error msg => ([], some msg)
    | Except.ok out =>
      let p := processBatch cfg fs
      ((f.name, out) :: p.1, p.2)

/-- No adjacent pair of a reverse-chronological subsequence lies within the
window `w`: the condition under which the channel loop stops. -/
def gapOpen (w : ℚ) (l : List TouchEvent) : Prop :=
  List.Chain' (fun a b => ¬(a.start - b.start ≤ w)) l

/-- Ascending-by-start ordering of an event list: the invariant the
extractor establishes before the filters run. -/
def sortedByStart (l : List TouchEvent) : Prop :=
  List.Pairwise (fun a b => a.start ≤ b.start) l

/-! ### Sorting helper lemmas -/

theorem insertT_perm (e : TouchEvent) (l : List TouchEvent) :
    List.Perm (insertT e l) (e :: l) := by
  induction l with
  | nil => simp [insertT]
  | cons x xs ih =>
    simp only [insertT]
    split
    · exact List.Perm.refl _
    · exact (List.Perm.cons x ih).trans (List.Perm.swap e x xs)

theorem sortByTime_perm (l : List TouchEvent) :
    List.Perm (sortByTime l) l := by
  induction l with
  | nil => simp [sortByTime]
  | cons x xs ih =>
    exact ((insertT_perm x (sortByTime xs)).trans (ih.cons x))

theorem insertT_sorted (e : TouchEvent) (l : List TouchEvent)
    (h : List.Pairwise (fun a b => a.start ≤ b.start) l) :
    List.Pairwise (fun a b => a.start ≤ b.start) (insertT e l) := by
  induction l with
  | nil => simp [insertT]
  | cons x xs ih =>
    simp only [insertT]
    split
    · rename_i hle
      refine List.Pairwise.cons ?_ h
      intro y hy
      rcases List.mem_cons.mp hy with hy | hy
      · exact hy ▸ hle
      · exact le_trans hle ((List.pairwise_cons.mp h).1 y hy)
    · rename_i hlt
      have hx := le_of_lt (lt_of_not_le hlt)
      refine List.Pairwise.cons ?_ (ih (List.pairwise_cons.mp h).2)
      intro y hy
      rcases List.mem_cons.mp ((insertT_perm e xs).mem_iff.mp hy) with hy | hy
      · exact hy ▸ hx
      · exact (List.pairwise_cons.mp h).1 y hy

theorem sortByTime_sorted (l : List TouchEvent) :
    List.Pairwise (fun a b => a.start ≤ b.start) (sortByTime l) := by
  induction l with
  | nil => simp [sortByTime]
  | cons x xs ih => exact insertT_sorted x (sortByTime xs) ih

theorem insertNat_perm (n : ℕ) (l : List ℕ) :
    List.Perm (insertNat n l) (n :: l) := by
  induction l with
  | nil => simp [insertNat]
  | cons x xs ih =>
    simp only [insertNat]
    split
    · exact List.Perm.refl _
    · exact (List.Perm.cons x ih).trans (List.Perm.swap n x xs)

theorem sortNat_perm (l : List ℕ) : List.Perm (sortNat l) l := by
  induction l with
  | nil => simp [sortNat]
  | cons x xs ih => exact ((insertNat_perm x (sortNat xs)).trans (ih.cons x))

theorem mem_repeatedChannels (xs : List TouchEvent) (c : ℕ) :
    c ∈ repeatedChannels xs ↔ 2 ≤ channelCount xs c := by
  unfold repeatedChannels
  rw [List.mem_filter]
  simp only [decide_eq_true_eq]
  constructor
  · exact fun h => h.2
  · intro h
    refine ⟨?_, h⟩
    have hmem : c ∈ (xs.map (fun e => e.channel)).dedup := by
      rw [List.mem_dedup, List.mem_map]
      have hlen : 0 < (xs.filter (fun e => e.channel == c)).length :=
        lt_of_lt_of_le (by norm_num) h
      rcases List.exists_mem_of_length_pos hlen with ⟨e, he⟩
      have := List.mem_filter.mp he
      exact ⟨e, this.1, by simpa using this.2⟩
    exact (sortNat_perm _).mem_iff.mpr hmem

theorem repeatedChannels_nodup (xs : List TouchEvent) :
    (repeatedChannels xs).Nodup := by
  unfold repeatedChannels
  exact (((sortNat_perm _).nodup_iff).mpr (List.nodup_dedup _)).filter _

/-! ### Lemmas about the repeated-touch channel loop -/

theorem scanStep_spec (w : ℚ) (sub : List TouchEvent) :
    (scanStep w sub = ScanResult.stop ∧ gapOpen w sub) ∨
    (∃ e rest, scanStep w sub = ScanResult.deleted e rest ∧
      List.Perm (e :: rest) sub ∧ rest.Sublist sub ∧ ¬gapOpen w sub) := by
  induction sub with
  | nil => exact Or.inl ⟨rfl, List.chain'_nil⟩
  | cons a tail ih =>
    cases tail with
    | nil => exact Or.inl ⟨rfl, List.chain'_singleton a⟩
    | cons b r =>
      by_cases hgap : a.start - b.start ≤ w
      · refine Or.inr ?_
        by_cases hcond : a.duration < b.duration ∨ a.channel = 47
        · refine ⟨a, b :: r, by rw [scanStep, if_pos hgap, if_pos hcond],
            List.Perm.refl _, List.Sublist.cons a (List.Sublist.refl _), ?_⟩
          exact fun hc => (List.chain'_cons.mp hc).1 hgap
        · refine ⟨b, a :: r, by rw [scanStep, if_pos hgap, if_neg hcond],
            List.Perm.swap a b r, ((List.Sublist.refl r).cons b).cons₂ a, ?_⟩
          exact fun hc => (List.chain'_cons.mp hc).1 hgap
      · rcases ih with ⟨hstop, hchain⟩ | ⟨e, rest, hs, hp, hsub, hng⟩
        · exact Or.inl ⟨by rw [scanStep, if_neg hgap, hstop],
            List.chain'_cons.mpr ⟨hgap, hchain⟩⟩
        · refine Or.inr ⟨e, a :: rest, by rw [scanStep, if_neg hgap, hs], ?_, hsub.cons₂ a, ?_⟩
          · exact (List.Perm.swap a e rest).trans (hp.cons a)
          · exact fun hc => hng (List.chain'_cons.mp hc).2

theorem scanStep_deleted_perm (w : ℚ) (sub : List TouchEvent) (e : TouchEvent)
    (rest : List TouchEvent) (h : scanStep w sub = ScanResult.deleted e rest) :
    List.Perm (e :: rest) sub := by
  rcases scanStep_spec w sub with ⟨hstop, _⟩ | ⟨e2, rest2, hs, hp, _, _⟩
  · rw [h] at hstop; cases hstop
  · obtain ⟨h1, h2⟩ := ScanResult.deleted.inj (h.symm.trans hs)
    subst h1; subst h2; exact hp

theorem scanStep_deleted_sublist (w : ℚ) (sub : List TouchEvent) (e : TouchEvent)
    (rest : List TouchEvent) (h : scanStep w sub = ScanResult.deleted e rest) :
    rest.Sublist sub := by
  rcases scanStep_spec w sub with ⟨hstop, _⟩ | ⟨e2, rest2, hs, _, hsub, _⟩
  · rw [h] at hstop; cases hstop
  · obtain ⟨h1, h2⟩ := ScanResult.deleted.inj (h.symm.trans hs)
    subst h1; subst h2; exact hsub

theorem scanStep_deleted_length (w : ℚ) (sub : List TouchEvent) (e : TouchEvent)
    (rest : List TouchEvent) (h : scanStep w sub = ScanResult.deleted e rest) :
    rest.length + 1 = sub.length := by
  simpa using (scanStep_deleted_perm w sub e rest h).length_eq

theorem scanStep_stop_iff (w : ℚ) (sub : List TouchEvent) :
    scanStep w sub = ScanResult.stop ↔ gapOpen w sub := by
  rcases scanStep_spec w sub with ⟨hstop, hchain⟩ | ⟨e, rest, hs, _, _, hng⟩
  · exact ⟨fun _ => hchain, fun _ => hstop⟩
  · refine ⟨fun h => ?_, fun h => absurd h hng⟩
    rw [hs] at h; cases h

theorem rtLoop_succ_stop (fuel : ℕ) (w : ℚ) (sub : List TouchEvent)
    (h1 : ¬sub.length ≤ 1) (hs : scanStep w sub = ScanResult.stop) :
    rtLoop (fuel + 1) w sub = (sub, []) := by
  rw [rtLoop, if_neg h1, hs]

theorem rtLoop_succ_deleted (fuel : ℕ) (w : ℚ) (sub : List TouchEvent)
    (e : TouchEvent) (rest : List TouchEvent)
    (h1 : ¬sub.length ≤ 1) (hs : scanStep w sub = ScanResult.deleted e rest) :
    rtLoop (fuel + 1) w sub =
      if rest.length < 2 then (rest, [e])
      else ((rtLoop fuel w rest).1, e :: (rtLoop fuel w rest).2) := by
  rw [rtLoop, if_neg h1, hs]

theorem rtLoop_perm (w : ℚ) :
    ∀ (fuel : ℕ) (sub : List TouchEvent), 2 ≤ sub.length → sub.length ≤ fuel →
      List.Perm ((rtLoop fuel w sub).1 ++ (rtLoop fuel w sub).2) sub := by
  intro fuel
  induction fuel with
  | zero => intro sub h2 hf; omega
  | succ fuel ih =>
    intro sub h2 hf
    rcases scanStep_spec w sub with ⟨hs, _⟩ | ⟨e, rest, hs, hp, _, _⟩
    · rw [rtLoop_succ_stop fuel w sub (by omega) hs]; simp
    · rw [rtLoop_succ_deleted fuel w sub e rest (by omega) hs]
      have hlen := scanStep_deleted_length w sub e rest hs
      by_cases hr : rest.length < 2
      · rw [if_pos hr]
        exact (List.perm_append_comm).trans hp
      · rw [if_neg hr]
        have ihr := ih rest (by omega) (by omega)
        exact (List.perm_middle.trans ((ihr).cons e)).trans hp

theorem rtLoop_kept_mem (w : ℚ) :
    ∀ (fuel : ℕ) (sub : List TouchEvent) (x : TouchEvent),
      x ∈ (rtLoop fuel w sub).1 → x ∈ sub := by
  intro fuel
  induction fuel with
  | zero => intro sub x h; simp [rtLoop] at h
  | succ fuel ih =>
    intro sub x h
    by_cases h1 : sub.length ≤ 1
    · rw [rtLoop, if_pos h1] at h; simp at h
    · rcases scanStep_spec w sub with ⟨hs, _⟩ | ⟨e, rest, hs, _, hsub, _⟩
      · rw [rtLoop_succ_stop fuel w sub h1 hs] at h; exact h
      · rw [rtLoop_succ_deleted fuel w sub e rest h1 hs] at h
        by_cases hr : rest.length < 2
        · rw [if_pos hr] at h
          exact hsub.mem h
        · rw [if_neg hr] at h
          exact hsub.mem (ih rest x h)

theorem gapOpen_of_short (w : ℚ) (l : List TouchEvent) (h : l.length ≤ 1) :
    gapOpen w l := by
  match l, h with
  | [], _ => exact List.chain'_nil
  | [x], _ => exact List.chain'_singleton x

theorem rtLoop_kept_desc (w : ℚ) :
    ∀ (fuel : ℕ) (sub : List TouchEvent),
      List.Pairwise (fun a b => b.start ≤ a.start) sub →
      List.Pairwise (fun a b => b.start ≤ a.start) (rtLoop fuel w sub).1 := by
  intro fuel
  induction fuel with
  | zero => intro sub h; simp [rtLoop]
  | succ fuel ih =>
    intro sub h
    by_cases h1 : sub.length ≤ 1
    · rw [rtLoop, if_pos h1]; simp
    · rcases scanStep_spec w sub with ⟨hs, _⟩ | ⟨e, rest, hs, _, hsub, _⟩
      · rw [rtLoop_succ_stop fuel w sub h1 hs]; exact h
      · rw [rtLoop_succ_deleted fuel w sub e rest h1 hs]
        by_cases hr : rest.length < 2
        · rw [if_pos hr]; exact h.sublist hsub
        · rw [if_neg hr]; exact ih rest (h.sublist hsub)

theorem rtLoop_kept_gapOpen (w : ℚ) :
    ∀ (fuel : ℕ) (sub : List TouchEvent), gapOpen w (rtLoop fuel w sub).1 := by
  intro fuel
  induction fuel with
  | zero => intro sub; simp [rtLoop, gapOpen]
  | succ fuel ih =>
    intro sub
    by_cases h1 : sub.length ≤ 1
    · rw [rtLoop, if_pos h1]; simp [gapOpen]
    · rcases scanStep_spec w sub with ⟨hs, hgap⟩ | ⟨e, rest, hs, _, _, _⟩
      · rw [rtLoop_succ_stop fuel w sub h1 hs]; exact hgap
      · rw [rtLoop_succ_deleted fuel w sub e rest h1 hs]
        by_cases hr : rest.length < 2
        · rw [if_pos hr]; exact gapOpen_of_short w rest (by omega)
        · rw [if_neg hr]; exact ih rest

theorem rtLoop_del_nil (w : ℚ) (fuel : ℕ) (sub : List TouchEvent)
    (h : gapOpen w sub) : (rtLoop fuel w sub).2 = [] := by
  cases fuel with
  | zero => simp [rtLoop]
  | succ fuel =>
    by_cases h1 : sub.length ≤ 1
    · rw [rtLoop, if_pos h1]
    · rw [rtLoop_succ_stop fuel w sub h1 ((scanStep_stop_iff w sub).mpr h)]

/-! ### Filter bookkeeping lemmas -/

theorem filter_mem_filter_channel (xs : List TouchEvent) (chans : List ℕ) (c : ℕ)
    (hc : c ∈ chans) :
    (xs.filter (fun e => decide (e.channel ∈ chans))).filter (fun e => e.channel == c) =
      xs.filter (fun e => e.channel == c) := by
  induction xs with
  | nil => rfl
  | cons e xs ih =>
    by_cases hec : e.channel = c
    · have hmem : e.channel ∈ chans := hec ▸ hc
      simp [List.filter_cons, hmem, hec, hc, ih]
    · by_cases hm : e.channel ∈ chans <;> simp [List.filter_cons, hm, hec, ih]

theorem filter_notmem_filter_channel (xs : List TouchEvent) (chans : List ℕ) (c : ℕ)
    (hc : c ∈ chans) :
    (xs.filter (fun e => !(decide (e.channel ∈ chans)))).filter (fun e => e.channel == c) =
      [] := by
  induction xs with
  | nil => rfl
  | cons e xs ih =>
    by_cases hec : e.channel = c
    · have hmem : e.channel ∈ chans := hec ▸ hc
      simp [List.filter_cons, hmem, hec, hc, ih]
    · by_cases hm : e.channel ∈ chans <;> simp [List.filter_cons, hm, hec, ih]

theorem filter_channel_ne (l : List TouchEvent) (c c2 : ℕ) (h : c2 ≠ c) :
    (l.filter (fun e => !(e.channel == c))).filter (fun e => e.channel == c2) =
      l.filter (fun e => e.channel == c2) := by
  induction l with
  | nil => rfl
  | cons e l ih =>
    by_cases hec : e.channel = c
    · have hcc : ¬(c = c2) := fun hh => h hh.symm
      simp [List.filter_cons, hec, hcc, ih]
    · by_cases he2 : e.channel = c2 <;> simp [List.filter_cons, hec, he2, h, ih]

theorem flatten_filter_channels_perm :
    ∀ (cs : List ℕ) (l : List TouchEvent), cs.Nodup → (∀ e ∈ l, e.channel ∈ cs) →
      List.Perm ((cs.map (fun c => l.filter (fun e => e.channel == c))).flatten) l := by
  intro cs
  induction cs with
  | nil =>
    intro l _ hcov
    have : l = [] := List.eq_nil_iff_forall_not_mem.mpr
      (fun e he => by simpa using hcov e he)
    simp [this]
  | cons c cs ih =>
    intro l hnd hcov
    simp only [List.map_cons, List.flatten_cons]
    have hmapeq : cs.map (fun c2 => l.filter (fun e => e.channel == c2)) =
        cs.map (fun c2 => (l.filter (fun e => !(e.channel == c))).filter
          (fun e => e.channel == c2)) := by
      refine List.map_congr_left ?_
      intro c2 hc2
      have hne : c2 ≠ c := fun hcc => (List.nodup_cons.mp hnd).1 (hcc ▸ hc2)
      exact (filter_channel_ne l c c2 hne).symm
    rw [hmapeq]
    have ihl := ih (l.filter (fun e => !(e.channel == c))) (List.nodup_cons.mp hnd).2 ?_
    · refine (ihl.append_left _).trans ?_
      exact List.filter_append_perm _ l
    · intro e he
      have hm := List.mem_filter.mp he
      have := hcov e hm.1
      rcases List.mem_cons.mp this with hh | hh
      · exact absurd (by simpa using hh) (by simpa using hm.2)
      · exact hh

theorem flatten_map_append_perm (L : List ℕ) (g1 g2 : ℕ → List TouchEvent) :
    List.Perm ((L.map g1).flatten ++ (L.map g2).flatten)
      ((L.map (fun c => g1 c ++ g2 c)).flatten) := by
  induction L with
  | nil => simp
  | cons c L ih =>
    simp only [List.map_cons, List.flatten_cons]
    have h0 : List.Perm (((L.map g1).flatten ++ g2 c) ++ (L.map g2).flatten)
        ((g2 c ++ (L.map g1).flatten) ++ (L.map g2).flatten) :=
      List.Perm.append_right _ List.perm_append_comm
    have h1 : List.Perm ((L.map g1).flatten ++ (g2 c ++ (L.map g2).flatten))
        (g2 c ++ ((L.map g1).flatten ++ (L.map g2).flatten)) := by
      rw [← List.append_assoc, ← List.append_assoc]
      exact h0
    rw [List.append_assoc]
    refine (h1.append_left (g1 c)).trans ?_
    rw [← List.append_assoc]
    exact ih.append_left _

theorem flatten_map_perm_congr (L : List ℕ) (g g2 : ℕ → List TouchEvent)
    (h : ∀ c ∈ L, List.Perm (g c) (g2 c)) :
    List.Perm ((L.map g).flatten) ((L.map g2).flatten) := by
  induction L with
  | nil => simp
  | cons c L ih =>
    simp only [List.map_cons, List.flatten_cons]
    exact (h c (List.mem_cons_self c L)).append
      (ih (fun c2 hc2 => h c2 (List.mem_cons_of_mem c hc2)))

theorem rtDesc_filter_length (xs : List TouchEvent) (chans : List ℕ) (c : ℕ)
    (hc : c ∈ chans) :
    (((sortByTime (xs.filter (fun e => decide (e.channel ∈ chans)))).reverse).filter
        (fun e => e.channel == c)).length = channelCount xs c := by
  have hperm : List.Perm ((sortByTime (xs.filter (fun e => decide (e.channel ∈ chans)))).reverse)
      (xs.filter (fun e => decide (e.channel ∈ chans))) :=
    (List.reverse_perm _).trans (sortByTime_perm _)
  have := (hperm.filter (fun e => e.channel == c)).length_eq
  rw [this, filter_mem_filter_channel xs chans c hc]
  rfl

theorem repeated_touches_eq (xs : List TouchEvent) (w : ℚ) :
    repeated_touches xs w =
      (sortByTime ((xs.filter (fun e => !(decide (e.channel ∈ repeatedChannels xs)))) ++
        ((((repeatedChannels xs).map (fun c => processChannel w
            (((sortByTime (xs.filter (fun e =>
              decide (e.channel ∈ repeatedChannels xs)))).reverse).filter
              (fun e => e.channel == c)))).map Prod.fst).flatten)),
       sortByTime ((((repeatedChannels xs).map (fun c => processChannel w
            (((sortByTime (xs.filter (fun e =>
              decide (e.channel ∈ repeatedChannels xs)))).reverse).filter
              (fun e => e.channel == c)))).map Prod.snd).flatten)) := rfl

theorem repeated_touches_perm (xs : List TouchEvent) (w : ℚ) :
    List.Perm ((repeated_touches xs w).1 ++ (repeated_touches xs w).2) xs := by
  rw [repeated_touches_eq]
  refine ((sortByTime_perm _).append (sortByTime_perm _)).trans ?_
  rw [List.map_map, List.map_map, List.append_assoc]
  have hE : List.Perm
      ((sortByTime (xs.filter (fun e =>
        decide (e.channel ∈ repeatedChannels xs)))).reverse)
      (xs.filter (fun e => decide (e.channel ∈ repeatedChannels xs))) :=
    (List.reverse_perm _).trans (sortByTime_perm _)
  have hA : ∀ c ∈ repeatedChannels xs,
      List.Perm ((processChannel w (((sortByTime (xs.filter (fun e =>
          decide (e.channel ∈ repeatedChannels xs)))).reverse).filter
          (fun e => e.channel == c))).1 ++
        (processChannel w (((sortByTime (xs.filter (fun e =>
          decide (e.channel ∈ repeatedChannels xs)))).reverse).filter
          (fun e => e.channel == c))).2)
        (((sortByTime (xs.filter (fun e =>
          decide (e.channel ∈ repeatedChannels xs)))).reverse).filter
          (fun e => e.channel == c)) := by
    intro c hc
    have hlen := rtDesc_filter_length xs (repeatedChannels xs) c hc
    have h2 : 2 ≤ (((sortByTime (xs.filter (fun e =>
        decide (e.channel ∈ repeatedChannels xs)))).reverse).filter
        (fun e => e.channel == c)).length := by
      rw [hlen]
      exact (mem_repeatedChannels xs c).mp hc
    exact rtLoop_perm w _ _ h2 (le_refl _)
  have hcov : ∀ e ∈ (sortByTime (xs.filter (fun e =>
      decide (e.channel ∈ repeatedChannels xs)))).reverse,
      e.channel ∈ repeatedChannels xs := by
    intro e he
    have := hE.mem_iff.mp he
    simpa using (List.mem_filter.mp this).2
  have hBF : List.Perm
      ((((repeatedChannels xs).map (fun c => (processChannel w
          (((sortByTime (xs.filter (fun e =>
            decide (e.channel ∈ repeatedChannels xs)))).reverse).filter
            (fun e => e.channel == c))).1)).flatten) ++
       (((repeatedChannels xs).map (fun c => (processChannel w
          (((sortByTime (xs.filter (fun e =>
            decide (e.channel ∈ repeatedChannels xs)))).reverse).filter
            (fun e => e.channel == c))).2)).flatten))
      (xs.filter (fun e => decide (e.channel ∈ repeatedChannels xs))) := by
    refine (flatten_map_append_perm _ _ _).trans ?_
    refine (flatten_map_perm_congr _ _ _ hA).trans ?_
    exact (flatten_filter_channels_perm (repeatedChannels xs) _
      (repeatedChannels_nodup xs) hcov).trans hE
  refine (List.Perm.append_left _ hBF).trans ?_
  exact (List.perm_append_comm).trans (List.filter_append_perm _ xs)

/-! ### Lemmas about the double-electrode loop -/

theorem findInner_lt (e : TouchEvent) :
    ∀ (l : List TouchEvent) (i : ℕ), findInner e l = some i → i < l.length := by
  intro l
  induction l with
  | nil => intro i h; simp [findInner] at h
  | cons o rest ih =>
    intro i h
    rw [findInner] at h
    by_cases hg : deGuard e.channel o.channel
    · rw [if_pos hg] at h
      cases h
      simp
    · rw [if_neg hg] at h
      cases hi : findInner e rest with
      | none => rw [hi] at h; cases h
      | some j =>
        rw [hi] at h
        cases h
        have := ih j hi
        simp only [List.length_cons]
        omega

theorem findDE_spec :
    ∀ (l : List TouchEvent) (r r2 : ℕ), findDE l = some (r, r2) →
      r < l.length ∧
      r2 < (withinTime (l.getD r default) (l.drop (r + 1))).length := by
  intro l
  induction l with
  | nil => intro r r2 h; simp [findDE] at h
  | cons e rest ih =>
    intro r r2 h
    rw [findDE] at h
    cases hi : findInner e (withinTime e rest) with
    | some j =>
      rw [hi] at h
      obtain ⟨h1, h2⟩ := Prod.mk.injEq _ _ _ _ ▸ (Option.some.inj h)
      subst h1; subst h2
      refine ⟨by simp, ?_⟩
      simpa [List.getD] using findInner_lt e _ _ hi
    | none =>
      rw [hi] at h
      cases hd : findDE rest with
      | none => rw [hd] at h; cases h
      | some p =>
        rw [hd] at h
        cases h
        obtain ⟨hr, hr2⟩ := ih p.1 p.2 (by rw [hd])
        constructor
        · simp only [List.length_cons]; omega
        · simpa [List.getD] using hr2

theorem withinTime_eq_takeWhile (e : TouchEvent) :
    ∀ (l : List TouchEvent), sortedByStart l →
      withinTime e l = l.takeWhile (fun o => decide (o.start ≤ e.start + 3 / 20)) := by
  intro l
  induction l with
  | nil => intro _; rfl
  | cons x xs ih =>
    intro h
    rw [withinTime, List.filter_cons, List.takeWhile_cons]
    by_cases hx : x.start ≤ e.start + 3 / 20
    · rw [if_pos (by simpa using hx), if_pos (by simpa using hx)]
      rw [← withinTime, ih (List.pairwise_cons.mp h).2]
    · rw [if_neg (by simpa using hx), if_neg (by simpa using hx)]
      refine List.filter_eq_nil_iff.mpr ?_
      intro y hy
      simp only [decide_eq_true_eq]
      intro hle
      exact hx (le_trans ((List.pairwise_cons.mp h).1 y hy) hle)

theorem prefix_getD (l₁ l₂ : List TouchEvent) (h : l₁.IsPrefix l₂) (i : ℕ)
    (hi : i < l₁.length) : l₁.getD i default = l₂.getD i default := by
  obtain ⟨t, rfl⟩ := h
  rw [List.getD_eq_getElem?_getD, List.getD_eq_getElem?_getD,
    List.getElem?_append, if_pos hi]

theorem drop_getD (l : List TouchEvent) (n i : ℕ) :
    (l.drop n).getD i default = l.getD (n + i) default := by
  rw [List.getD_eq_getElem?_getD, List.getD_eq_getElem?_getD, List.getElem?_drop]

theorem getD_cons_eraseIdx_perm :
    ∀ (l : List TouchEvent) (i : ℕ), i < l.length →
      List.Perm (l.getD i default :: l.eraseIdx i) l := by
  intro l
  induction l with
  | nil => intro i hi; simp at hi
  | cons x xs ih =>
    intro i hi
    cases i with
    | zero => simp [List.getD]
    | succ i =>
      have hi2 : i < xs.length := by simpa using hi
      simp only [List.getD_cons_succ, List.eraseIdx_cons_succ]
      exact (List.Perm.swap x (xs.getD i default) (xs.eraseIdx i)).trans
        ((ih i hi2).cons x)

/-- Alignment of the double-electrode deletion: on a start-time-ordered list
the recorded event `within_time[row2]` is exactly the removed event
`touches[row+row2+1]`. -/
theorem findDE_align (l : List TouchEvent) (r r2 : ℕ) (hs : sortedByStart l)
    (h : findDE l = some (r, r2)) :
    (withinTime (l.getD r default) (l.drop (r + 1))).getD r2 default =
      l.getD (r + r2 + 1) default ∧ r + r2 + 1 < l.length := by
  obtain ⟨hr, hr2⟩ := findDE_spec l r r2 h
  have hdropsorted : sortedByStart (l.drop (r + 1)) :=
    hs.sublist (List.drop_sublist (r + 1) l)
  have htw := withinTime_eq_takeWhile (l.getD r default) (l.drop (r + 1)) hdropsorted
  have hpre : (withinTime (l.getD r default) (l.drop (r + 1))).IsPrefix (l.drop (r + 1)) := by
    rw [htw]; exact List.takeWhile_prefix _
  have hlen2 : r2 < (l.drop (r + 1)).length :=
    lt_of_lt_of_le hr2 hpre.length_le
  constructor
  · rw [prefix_getD _ _ hpre r2 hr2, drop_getD]
    congr 1
    omega
  · have : (l.drop (r + 1)).length = l.length - (r + 1) := List.length_drop _ _
    omega

theorem deLoop_zero (l : List TouchEvent) : deLoop 0 l = (l, []) := rfl

theorem deLoop_succ_none (fuel : ℕ) (l : List TouchEvent) (h : findDE l = none) :
    deLoop (fuel + 1) l = (l, []) := by
  rw [deLoop, h]

theorem deLoop_succ_some (fuel : ℕ) (l : List TouchEvent) (row r2 : ℕ)
    (h : findDE l = some (row, r2)) :
    deLoop (fuel + 1) l =
      if (l.getD row default).channel <
          ((withinTime (l.getD row default) (l.drop (row + 1))).getD r2 default).channel then
        ((deLoop fuel (l.eraseIdx row)).1,
          l.getD row default :: (deLoop fuel (l.eraseIdx row)).2)
      else
        ((deLoop fuel (l.eraseIdx (row + r2 + 1))).1,
          (withinTime (l.getD row default) (l.drop (row + 1))).getD r2 default ::
            (deLoop fuel (l.eraseIdx (row + r2 + 1))).2) := by
  rw [deLoop, h]

theorem deLoop_perm :
    ∀ (fuel : ℕ) (l : List TouchEvent), sortedByStart l → l.length ≤ fuel →
      List.Perm ((deLoop fuel l).1 ++ (deLoop fuel l).2) l := by
  intro fuel
  induction fuel with
  | zero => intro l _ _; simp [deLoop_zero]
  | succ fuel ih =>
    intro l hs hf
    cases hd : findDE l with
    | none => simp [deLoop_succ_none fuel l hd]
    | some p =>
      obtain ⟨r, r2⟩ := p
      rw [deLoop_succ_some fuel l r r2 hd]
      obtain ⟨hr, _⟩ := findDE_spec l r r2 hd
      obtain ⟨halign, hbound⟩ := findDE_align l r r2 hs hd
      by_cases hch : (l.getD r default).channel <
          ((withinTime (l.getD r default) (l.drop (r + 1))).getD r2 default).channel
      · rw [if_pos hch]
        have hperm := getD_cons_eraseIdx_perm l r hr
        have hlen : (l.eraseIdx r).length = l.length - 1 := List.length_eraseIdx_of_lt hr
        have hsorted : sortedByStart (l.eraseIdx r) := hs.sublist (List.eraseIdx_sublist l r)
        have ihr := ih (l.eraseIdx r) hsorted (by omega)
        exact (List.perm_middle.trans (ihr.cons _)).trans hperm
      · rw [if_neg hch, halign]
        have hperm := getD_cons_eraseIdx_perm l (r + r2 + 1) hbound
        have hlen : (l.eraseIdx (r + r2 + 1)).length = l.length - 1 :=
          List.length_eraseIdx_of_lt hbound
        have hsorted : sortedByStart (l.eraseIdx (r + r2 + 1)) :=
          hs.sublist (List.eraseIdx_sublist l (r + r2 + 1))
        have ihr := ih (l.eraseIdx (r + r2 + 1)) hsorted (by omega)
        exact (List.perm_middle.trans (ihr.cons _)).trans hperm

theorem deLoop_count :
    ∀ (fuel : ℕ) (l : List TouchEvent), l.length ≤ fuel →
      (deLoop fuel l).1.length + (deLoop fuel l).2.length = l.length := by
  intro fuel
  induction fuel with
  | zero => intro l _; simp [deLoop_zero]
  | succ fuel ih =>
    intro l hf
    cases hd : findDE l with
    | none => simp [deLoop_succ_none fuel l hd]
    | some p =>
      obtain ⟨r, r2⟩ := p
      rw [deLoop_succ_some fuel l r r2 hd]
      obtain ⟨hr, hr2⟩ := findDE_spec l r r2 hd
      have hbound : r + r2 + 1 < l.length := by
        have h1 : (withinTime (l.getD r default) (l.drop (r + 1))).length ≤
            (l.drop (r + 1)).length := List.length_filter_le _ _
        have h2 : (l.drop (r + 1)).length = l.length - (r + 1) := List.length_drop _ _
        omega
      by_cases hch : (l.getD r default).channel <
          ((withinTime (l.getD r default) (l.drop (r + 1))).getD r2 default).channel
      · rw [if_pos hch]
        have hlen : (l.eraseIdx r).length = l.length - 1 := List.length_eraseIdx_of_lt hr
        have := ih (l.eraseIdx r) (by omega)
        simp only [List.length_cons]
        omega
      · rw [if_neg hch]
        have hlen : (l.eraseIdx (r + r2 + 1)).length = l.length - 1 :=
          List.length_eraseIdx_of_lt hbound
        have := ih (l.eraseIdx (r + r2 + 1)) (by omega)
        simp only [List.length_cons]
        omega

theorem deLoop_fix :
    ∀ (fuel : ℕ) (l : List TouchEvent), l.length ≤ fuel →
      findDE (deLoop fuel l).1 = none := by
  intro fuel
  induction fuel with
  | zero =>
    intro l hf
    have : l = [] := List.length_eq_zero.mp (by omega)
    subst this
    rfl
  | succ fuel ih =>
    intro l hf
    cases hd : findDE l with
    | none => rw [deLoop_succ_none fuel l hd]; exact hd
    | some p =>
      obtain ⟨r, r2⟩ := p
      rw [deLoop_succ_some fuel l r r2 hd]
      obtain ⟨hr, hr2⟩ := findDE_spec l r r2 hd
      have hbound : r + r2 + 1 < l.length := by
        have h1 : (withinTime (l.getD r default) (l.drop (r + 1))).length ≤
            (l.drop (r + 1)).length := List.length_filter_le _ _
        have h2 : (l.drop (r + 1)).length = l.length - (r + 1) := List.length_drop _ _
        omega
      by_cases hch : (l.getD r default).channel <
          ((withinTime (l.getD r default) (l.drop (r + 1))).getD r2 default).channel
      · rw [if_pos hch]
        have hlen : (l.eraseIdx r).length = l.length - 1 := List.length_eraseIdx_of_lt hr
        exact ih (l.eraseIdx r) (by omega)
      · rw [if_neg hch]
        have hlen : (l.eraseIdx (r + r2 + 1)).length = l.length - 1 :=
          List.length_eraseIdx_of_lt hbound
        exact ih (l.eraseIdx (r + r2 + 1)) (by omega)

theorem double_electrode_fix (xs : List TouchEvent) :
    (double_electrode (double_electrode xs).1).2 = [] := by
  have h := deLoop_fix xs.length xs (le_refl _)
  unfold double_electrode
  cases hn : (deLoop xs.length xs).1.length with
  | zero => rw [deLoop_zero]
  | succ n => rw [deLoop_succ_none n _ h]

/-- C8: the Double-Electrode Filter terminates on every finite input (it is
a total function of the input list, with fuel `xs.length` shown sufficient:
a full extra pass finds nothing), performs at most as many deletions as
there are input events, and running it again on its own survivor output
produces zero deletions. -/
theorem c8_double_electrode_convergence (xs : List TouchEvent) :
    (double_electrode xs).2.length ≤ xs.length ∧
    (double_electrode (double_electrode xs).1).2 = [] := by
  constructor
  · have := deLoop_count xs.length xs (le_refl _)
    unfold double_electrode
    omega
  · exact double_electrode_fix xs

/-- C6: for a time-ordered input list (the invariant the extractor
establishes before either filter runs), each filter stage conserves events:
survivors together with deletions are a permutation of the input — nothing
lost, nothing duplicated — and in particular the counts add up. -/
theorem c6_conservation (xs : List TouchEvent) (w : ℚ) (hs : sortedByStart xs) :
    List.Perm ((repeated_touches xs w).1 ++ (repeated_touches xs w).2) xs ∧
    (repeated_touches xs w).1.length + (repeated_touches xs w).2.length = xs.length ∧
    List.Perm ((double_electrode xs).1 ++ (double_electrode xs).2) xs ∧
    (double_electrode xs).1.length + (double_electrode xs).2.length = xs.length := by
  have h1 := repeated_touches_perm xs w
  have h2 := deLoop_perm xs.length xs hs (le_refl _)
  have h3 := deLoop_count xs.length xs (le_refl _)
  refine ⟨h1, ?_, h2, ?_⟩
  · have := h1.length_eq
    rw [List.length_append] at this
    exact this
  · unfold double_electrode
    omega

theorem c6_conservation_witness :
    sortedByStart [TouchEvent.mk 1 0 1] ∧
    (List.Perm ((repeated_touches [TouchEvent.mk 1 0 1] (3 / 20)).1 ++
        (repeated_touches [TouchEvent.mk 1 0 1] (3 / 20)).2) [TouchEvent.mk 1 0 1] ∧
      (repeated_touches [TouchEvent.mk 1 0 1] (3 / 20)).1.length +
        (repeated_touches [TouchEvent.mk 1 0 1] (3 / 20)).2.length = 1 ∧
      List.Perm ((double_electrode [TouchEvent.mk 1 0 1]).1 ++
        (double_electrode [TouchEvent.mk 1 0 1]).2) [TouchEvent.mk 1 0 1] ∧
      (double_electrode [TouchEvent.mk 1 0 1]).1.length +
        (double_electrode [TouchEvent.mk 1 0 1]).2.length = 1) :=
  ⟨List.pairwise_singleton _ _,
    c6_conservation [TouchEvent.mk 1 0 1] (3 / 20) (List.pairwise_singleton _ _)⟩

/-! ### C1: the double-electrode adjacency guard -/

/-- C1 (code evaluation at the failing input): for events on channel 47
(start 1.000 s) and channel 45 (start 1.100 s) — within 150 ms, channels 2
apart, one of them the start channel 47 — the Double-Electrode Filter does
collapse the pair, deleting the lower channel 45, because the literal guard
`ch_1 and ch_2 not in [0,47]` only tests truthiness of `ch_1` and so fails
to exclude `ch_1 == 47`; the claim (and the comment in the source) say such
a pair must never be collapsed. -/
theorem c1_double_electrode_collapses_start_channel :
    double_electrode [TouchEvent.mk 47 1 1, TouchEvent.mk 45 (11 / 10) 1] =
      ([TouchEvent.mk 47 1 1], [TouchEvent.mk 45 (11 / 10) 1]) := by
  have hfind : findDE [TouchEvent.mk 47 1 1, TouchEvent.mk 45 (11 / 10) 1] =
      some (0, 0) := by
    norm_num [findDE, findInner, withinTime, deGuard]
  have hfind1 : findDE [TouchEvent.mk 47 1 1] = none := by
    norm_num [findDE, findInner, withinTime, deGuard]
  show deLoop 2 _ = _
  rw [(by norm_num : (2 : ℕ) = 1 + 1), deLoop_succ_some 1 _ 0 0 hfind]
  norm_num [withinTime, List.getD, List.eraseIdx]
  rw [(by norm_num : (1 : ℕ) = 0 + 1), deLoop_succ_none 0 _ hfind1]
  exact ⟨rfl, rfl⟩

/-! ### C2: the repeated-touch tie-break -/

theorem processChannel_pair (w : ℚ) (a b : TouchEvent) (hgap : a.start - b.start ≤ w) :
    processChannel w [a, b] =
      if a.duration < b.duration ∨ a.channel = 47 then ([b], [a]) else ([a], [b]) := by
  have hs : scanStep w [a, b] = if a.duration < b.duration ∨ a.channel = 47
      then ScanResult.deleted a [b] else ScanResult.deleted b [a] := by
    rw [scanStep, if_pos hgap]
  show rtLoop 2 w [a, b] = _
  rw [(by norm_num : (2 : ℕ) = 1 + 1)]
  by_cases hc : a.duration < b.duration ∨ a.channel = 47
  · rw [rtLoop_succ_deleted 1 w [a, b] a [b] (by simp) (by rw [hs, if_pos hc]),
      if_pos (by simp), if_pos hc]
  · rw [rtLoop_succ_deleted 1 w [a, b] b [a] (by simp) (by rw [hs, if_neg hc]),
      if_pos (by simp), if_neg hc]

/-- Full evaluation of the Repeated-Touch Filter on a same-channel pair
within the window (the deletion decision of filters.py lines 55-77). -/
theorem repeated_touches_pair (ch : ℕ) (t1 t2 d1 d2 w : ℚ)
    (h12 : t1 ≤ t2) (hwin : t2 - t1 ≤ w) :
    repeated_touches [TouchEvent.mk ch t1 d1, TouchEvent.mk ch t2 d2] w =
      if d2 < d1 ∨ ch = 47
      then ([TouchEvent.mk ch t1 d1], [TouchEvent.mk ch t2 d2])
      else ([TouchEvent.mk ch t2 d2], [TouchEvent.mk ch t1 d1]) := by
  have hrc : repeatedChannels [TouchEvent.mk ch t1 d1, TouchEvent.mk ch t2 d2] = [ch] := by
    simp [repeatedChannels, channelCount, List.dedup, sortNat, insertNat]
  have hpair := processChannel_pair w (TouchEvent.mk ch t2 d2) (TouchEvent.mk ch t1 d1)
    (by simpa using hwin)
  have hsort : sortByTime [TouchEvent.mk ch t1 d1, TouchEvent.mk ch t2 d2] =
      [TouchEvent.mk ch t1 d1, TouchEvent.mk ch t2 d2] := by
    simp [sortByTime, insertT, h12]
  have hfil1 : List.filter (fun e => !(decide (e.channel ∈ [ch])))
      [TouchEvent.mk ch t1 d1, TouchEvent.mk ch t2 d2] = [] := by simp
  have hfil2 : List.filter (fun e => decide (e.channel ∈ [ch]))
      [TouchEvent.mk ch t1 d1, TouchEvent.mk ch t2 d2] =
      [TouchEvent.mk ch t1 d1, TouchEvent.mk ch t2 d2] := by simp
  have hrev : ([TouchEvent.mk ch t1 d1, TouchEvent.mk ch t2 d2] : List TouchEvent).reverse =
      [TouchEvent.mk ch t2 d2, TouchEvent.mk ch t1 d1] := rfl
  have hfil3 : List.filter (fun e => e.channel == ch)
      [TouchEvent.mk ch t2 d2, TouchEvent.mk ch t1 d1] =
      [TouchEvent.mk ch t2 d2, TouchEvent.mk ch t1 d1] := by simp
  rw [repeated_touches_eq, hrc, hfil1, hfil2, hsort, hrev]
  simp only [List.map_cons, List.map_nil, List.flatten_cons, List.flatten_nil,
    List.append_nil, List.nil_append]
  rw [hfil3, hpair]
  by_cases hc : d2 < d1 ∨ ch = 47
  · rw [if_pos hc]
    simp [sortByTime, insertT]
  · rw [if_neg hc]
    simp [sortByTime, insertT]

/-- C2 (counterexample): on the start channel 47, two events 0.05 s apart
with durations 0.20 s then 0.05 s: the filter deletes the second (later)
event, not the first — the claim says that on channel 47 the first (`a`)
is deleted regardless of duration. -/
theorem c2_counterexample :
    (repeated_touches [TouchEvent.mk 47 0 (1 / 5), TouchEvent.mk 47 (1 / 20) (1 / 20)]
        (3 / 20)).2 = [TouchEvent.mk 47 (1 / 20) (1 / 20)] ∧
    (repeated_touches [TouchEvent.mk 47 0 (1 / 5), TouchEvent.mk 47 (1 / 20) (1 / 20)]
        (3 / 20)).2 ≠ [TouchEvent.mk 47 0 (1 / 5)] := by
  have h := repeated_touches_pair 47 0 (1 / 20) (1 / 5) (1 / 20) (3 / 20)
    (by norm_num) (by norm_num)
  rw [if_pos (Or.inr rfl)] at h
  rw [h]
  refine ⟨rfl, ?_⟩
  simp only [ne_eq, List.cons.injEq, TouchEvent.mk.injEq]
  norm_num

/-- C2 (amended): for two same-channel events `a` (earlier) and `b` (later)
whose start times lie within the window, the filter deletes the later event
`b` and keeps `a` exactly when `b.duration < a.duration` or the channel is
the start channel 47; otherwise it deletes the earlier event `a` and keeps
`b`.  In particular, with durations 0.20 s then 0.05 s the second (shorter)
event is deleted on every channel, channel 47 included; the subarray is
scanned in reverse-chronological order, so the duration test and the
channel-47 exception apply to the later event. -/
theorem c2_repeated_touch_tiebreak (ch : ℕ) (t1 t2 d1 d2 w : ℚ)
    (h12 : t1 ≤ t2) (hwin : t2 - t1 ≤ w) :
    repeated_touches [TouchEvent.mk ch t1 d1, TouchEvent.mk ch t2 d2] w =
      if d2 < d1 ∨ ch = 47
      then ([TouchEvent.mk ch t1 d1], [TouchEvent.mk ch t2 d2])
      else ([TouchEvent.mk ch t2 d2], [TouchEvent.mk ch t1 d1]) :=
  repeated_touches_pair ch t1 t2 d1 d2 w h12 hwin

theorem c2_repeated_touch_tiebreak_witness :
    ((0 : ℚ) ≤ 1 / 20 ∧ (1 : ℚ) / 20 - 0 ≤ 3 / 20) ∧
    repeated_touches [TouchEvent.mk 5 0 (1 / 5), TouchEvent.mk 5 (1 / 20) (1 / 20)]
        (3 / 20) =
      ([TouchEvent.mk 5 0 (1 / 5)], [TouchEvent.mk 5 (1 / 20) (1 / 20)]) := by
  refine ⟨⟨by norm_num, by norm_num⟩, ?_⟩
  rw [c2_repeated_touch_tiebreak 5 0 (1 / 20) (1 / 5) (1 / 20) (3 / 20)
    (by norm_num) (by norm_num)]
  rw [if_pos (Or.inl (by norm_num))]

/-! ### C4: short-duration touches -/

/-- C4: a completed touch on a foot-fault-eligible channel (0 < ch < 47)
with nonnegative duration below the duration threshold (the configured value
if one was given, else the default 0.1 s) is dropped from the event set and
logged as a ShortDuration deletion when the user configured a threshold, and
kept with only a warning logged when no threshold was configured; touches on
channels 0 and 47 are never touched by this rule. -/
theorem c4_short_duration_handling (cfg : Option ℚ) (ch : ℕ) (t0 d : ℚ) :
    (0 ≤ d → 0 < ch → ch < 47 → d < claimThreshold cfg →
      ((cfg = none →
          handle_release cfg ch t0 d =
            (true, [LogEntry.warnShort ch (round3 t0) (round3 d)])) ∧
        (∀ t, cfg = some t →
          handle_release cfg ch t0 d =
            (false, [LogEntry.delShort ch (round3 t0) (round3 d) t])))) ∧
    ((ch = 0 ∨ ch = 47) → handle_release cfg ch t0 d = (true, [])) := by
  constructor
  · intro hd hch1 hch2 hlt
    constructor
    · intro hnone
      subst hnone
      unfold handle_release
      rw [if_pos ⟨by simpa [claimThreshold, effThreshold] using hlt, hch1, hch2⟩]
      rw [if_neg (by simp [thresholdSet])]
    · intro t ht
      subst ht
      have hlt2 : d < t := by simpa [claimThreshold] using hlt
      have ht0 : t ≠ 0 := by
        intro h0
        rw [h0] at hlt2
        exact absurd hlt2 (not_lt.mpr hd)
      unfold handle_release
      have heff : effThreshold (some t) = t := by simp [effThreshold, ht0]
      rw [heff]
      rw [if_pos ⟨hlt2, hch1, hch2⟩]
      rw [if_pos (by simp [thresholdSet, ht0])]
  · intro h
    unfold handle_release
    rw [if_neg ?_]
    rintro ⟨_, h1, h2⟩
    rcases h with rfl | rfl
    · exact absurd h1 (lt_irrefl 0)
    · exact absurd h2 (lt_irrefl 47)

theorem c4_short_duration_handling_witness :
    ((0 : ℚ) ≤ 1 / 100 ∧ (0 : ℕ) < 5 ∧ (5 : ℕ) < 47 ∧
      (1 : ℚ) / 100 < claimThreshold (some (1 / 20))) ∧
    handle_release (some (1 / 20)) 5 0 (1 / 100) =
      (false, [LogEntry.delShort 5 (round3 0) (round3 (1 / 100)) (1 / 20)]) ∧
    handle_release none 5 0 (1 / 100) =
      (true, [LogEntry.warnShort 5 (round3 0) (round3 (1 / 100))]) ∧
    handle_release (some (1 / 20)) 0 0 (1 / 100) = (true, []) := by
  have h1 := c4_short_duration_handling (some (1 / 20)) 5 0 (1 / 100)
  have h2 := c4_short_duration_handling none 5 0 (1 / 100)
  have h3 := c4_short_duration_handling (some (1 / 20)) 0 0 (1 / 100)
  exact ⟨⟨by norm_num, by norm_num, by norm_num, by norm_num [claimThreshold]⟩,
    (h1.1 (by norm_num) (by norm_num) (by norm_num) (by norm_num [claimThreshold])).2
      (1 / 20) rfl,
    (h2.1 (by norm_num) (by norm_num) (by norm_num) (by norm_num [claimThreshold])).1 rfl,
    h3.2 (Or.inl rfl)⟩

/-! ### C5: the sample decoder -/

theorem decodeMask_length (m : ℕ) : (decodeMask m).length = 12 := by
  simp [decodeMask]

theorem decodeRow_getElem (masks : List ℕ) :
    ∀ (s b : ℕ), s < masks.length → b < 12 →
      (decodeRow masks)[12 * s + b]? = some (masks.getD s 0 / 2 ^ b % 2 == 1) := by
  induction masks with
  | nil => intro s b hs _; simp at hs
  | cons m ms ih =>
    intro s b hs hb
    cases s with
    | zero =>
      simp only [decodeRow, List.map_cons, List.flatten_cons]
      rw [List.getElem?_append, if_pos (by rw [decodeMask_length]; omega)]
      simp only [Nat.mul_zero, Nat.zero_add, decodeMask, List.getElem?_map,
        List.getElem?_range hb, Option.map_some, List.getD]
      rfl
    | succ s =>
      simp only [decodeRow, List.map_cons, List.flatten_cons]
      rw [List.getElem?_append, if_neg (by rw [decodeMask_length]; omega)]
      have hidx : 12 * (s + 1) + b - (decodeMask m).length = 12 * s + b := by
        rw [decodeMask_length]; omega
      rw [hidx]
      have := ih s b (by simpa using hs) hb
      simpa [decodeRow, List.getD] using this

theorem encodeRow_cons (b : Bool) (bs : List Bool) :
    encodeRow (b :: bs) = (if b then 1 else 0) + 2 * encodeRow bs := rfl

theorem decode_encode_aux :
    ∀ (n : ℕ) (bs : List Bool), bs.length = n →
      (List.range n).map (fun i => encodeRow bs / 2 ^ i % 2 == 1) = bs := by
  intro n
  induction n with
  | zero =>
    intro bs h
    rw [List.length_eq_zero.mp h]
    rfl
  | succ n ih =>
    intro bs h
    cases bs with
    | nil => simp at h
    | cons b bs =>
      rw [List.range_succ_eq_map, List.map_cons, List.map_map]
      have hlen : bs.length = n := by simpa using h
      have hhead : (encodeRow (b :: bs) / 2 ^ 0 % 2 == 1) = b := by
        rw [encodeRow_cons]
        cases b <;> simp [Nat.add_mul_mod_self_left]
      have hdiv2 : encodeRow (b :: bs) / 2 = encodeRow bs := by
        rw [encodeRow_cons, Nat.add_mul_div_left _ _ (by norm_num : 0 < 2)]
        cases b <;> simp
      have htail : ∀ i : ℕ,
          encodeRow (b :: bs) / 2 ^ (i + 1) % 2 = encodeRow bs / 2 ^ i % 2 := by
        intro i
        rw [pow_succ, mul_comm (2 ^ i) 2, ← Nat.div_div_eq_div_mul, hdiv2]
      refine List.cons_eq_cons.mpr ⟨hhead, ?_⟩
      refine (List.map_congr_left ?_).trans (ih bs hlen)
      intro i _
      simp only [Function.comp_apply]
      exact congrArg (fun x => x == 1) (htail i)

theorem decodeMask_encodeRow (bs : List Bool) (h : bs.length = 12) :
    decodeMask (encodeRow bs) = bs :=
  decode_encode_aux 12 bs h

/-- C5: the decoder is bit-exact: channel `12*s + b` of a decoded row is bit
`b` (least-significant first) of sensor mask `s`; and decoding a raw table
built from a known boolean matrix (rows of 12 channel bits per sensor)
reproduces exactly that matrix. -/
theorem c5_decoder_bit_exact (masks : List ℕ) (s b : ℕ) (matrix : List (List Bool))
    (hs : s < masks.length) (hb : b < 12) (hm : ∀ row ∈ matrix, row.length = 12) :
    (decodeRow masks)[12 * s + b]? = some (masks.getD s 0 / 2 ^ b % 2 == 1) ∧
    matrix.map (fun row => decodeMask (encodeRow row)) = matrix := by
  refine ⟨decodeRow_getElem masks s b hs hb, ?_⟩
  have : matrix.map (fun row => decodeMask (encodeRow row)) = matrix.map id :=
    List.map_congr_left (fun row hr => decodeMask_encodeRow row (hm row hr))
  rw [this, List.map_id]

theorem c5_decoder_bit_exact_witness :
    ((1 : ℕ) < 2 ∧ (0 : ℕ) < 12 ∧
      (∀ row ∈ [[true, false, true, false, false, false, false, false, false,
        false, false, true]], row.length = 12)) ∧
    (decodeRow [6, 2049])[12 * 1 + 0]? = some ((2049 : ℕ) / 2 ^ 0 % 2 == 1) ∧
    [[true, false, true, false, false, false, false, false, false, false, false,
      true]].map (fun row => decodeMask (encodeRow row)) =
      [[true, false, true, false, false, false, false, false, false, false, false,
        true]] := by
  have h := c5_decoder_bit_exact [6, 2049] 1 0
    [[true, false, true, false, false, false, false, false, false, false, false, true]]
    (by decide) (by decide) (by decide)
  exact ⟨⟨by decide, by decide, by decide⟩, by simpa using h.1, h.2⟩

/-! ### C9: fatal errors and the batch loop -/

theorem processBatch_cons_error (cfg : Config) (f : FileData) (fs : List FileData)
    (msg : String) (h : processFile cfg f = Except.error msg) :
    processBatch cfg (f :: fs) = ([], some msg) := by
  rw [processBatch, h]

theorem processBatch_cons_ok (cfg : Config) (f : FileData) (fs : List FileData)
    (out : List TouchEvent × List LogEntry) (h : processFile cfg f = Except.ok out) :
    processBatch cfg (f :: fs) =
      ((f.name, out) :: (processBatch cfg fs).1, (processBatch cfg fs).2) := by
  rw [processBatch, h]

/-- C9 (counterexample): in a two-file batch whose first file is fatally
malformed (a single data row), the run stops with the fatal message and
produces no output at all for the second file, even though the second file
on its own processes fine — the claim says the remaining files are still
processed. -/
theorem c9_counterexample :
    processBatch ⟨none, false⟩
      [⟨"bad_raw.txt", [(0, [0])]⟩, ⟨"good_raw.txt", [(0, [0]), (1, [0])]⟩] =
      ([], some "Error processing bad_raw.txt: No touches detected.") ∧
    processFile ⟨none, false⟩ ⟨"good_raw.txt", [(0, [0]), (1, [0])]⟩ =
      Except.ok ([], []) :=
  ⟨rfl, rfl⟩

/-- C9 (amended): when a fatal input error occurs on one file of a batch,
processing of that file halts with a message identifying the file and cause
(the error strings embed the file name), the files before it are processed,
and the whole run then stops: the remaining files are not processed, the
batch output containing exactly the results of the files preceding the
fatal one. -/
theorem c9_fatal_error_aborts_batch (cfg : Config) (pre : List FileData)
    (f : FileData) (post : List FileData) (msg : String)
    (hpre : ∀ g ∈ pre, ∃ out, processFile cfg g = Except.ok out)
    (hf : processFile cfg f = Except.error msg) :
    (processBatch cfg (pre ++ f :: post)).2 = some msg ∧
    (processBatch cfg (pre ++ f :: post)).1.length = pre.length := by
  induction pre with
  | nil =>
    rw [List.nil_append, processBatch_cons_error cfg f post msg hf]
    exact ⟨rfl, rfl⟩
  | cons g pre ih =>
    obtain ⟨out, hg⟩ := hpre g (List.mem_cons_self g pre)
    rw [List.cons_append, processBatch_cons_ok cfg g (pre ++ f :: post) out hg]
    obtain ⟨ih1, ih2⟩ := ih (fun g2 hg2 => hpre g2 (List.mem_cons_of_mem g hg2))
    exact ⟨ih1, by simpa using ih2⟩

theorem c9_fatal_error_aborts_batch_witness :
    ((∀ g ∈ [(⟨"first_raw.txt", [(0, [0]), (1, [0])]⟩ : FileData)],
        ∃ out, processFile ⟨none, false⟩ g = Except.ok out) ∧
      processFile ⟨none, false⟩ ⟨"bad_raw.txt", [(0, [0])]⟩ =
        Except.error "Error processing bad_raw.txt: No touches detected.") ∧
    (processBatch ⟨none, false⟩
        [⟨"first_raw.txt", [(0, [0]), (1, [0])]⟩, ⟨"bad_raw.txt", [(0, [0])]⟩,
         ⟨"post_raw.txt", [(0, [0]), (1, [0])]⟩]).2 =
      some "Error processing bad_raw.txt: No touches detected." ∧
    (processBatch ⟨none, false⟩
        [⟨"first_raw.txt", [(0, [0]), (1, [0])]⟩, ⟨"bad_raw.txt", [(0, [0])]⟩,
         ⟨"post_raw.txt", [(0, [0]), (1, [0])]⟩]).1.length = 1 := by
  have hpre : ∀ g ∈ [(⟨"first_raw.txt", [(0, [0]), (1, [0])]⟩ : FileData)],
      ∃ out, processFile ⟨none, false⟩ g = Except.ok out := by
    intro g hg
    rw [List.mem_singleton] at hg
    refine ⟨([], []), ?_⟩
    rw [hg]
    exact rfl
  have h := c9_fatal_error_aborts_batch ⟨none, false⟩
    [⟨"first_raw.txt", [(0, [0]), (1, [0])]⟩] ⟨"bad_raw.txt", [(0, [0])]⟩
    [⟨"post_raw.txt", [(0, [0]), (1, [0])]⟩]
    "Error processing bad_raw.txt: No touches detected." hpre rfl
  exact ⟨⟨hpre, rfl⟩, h.1, h.2⟩

/-! ### C3: dangling open touches -/

/-- C3 (code evaluation at the failing input): a decoded sample sequence in
which channel 0 transitions untouched-to-touched at the third row and never
back by end of data.  The extraction scan completes without error and its
entire output is empty: no event, no log line, nothing mentioning the
still-open touch.  The claim (and spec section 4.2/7) requires the dangling
touch to be surfaced; the code never inspects the open-touch map after the
scan, so it is silently dropped. -/
theorem c3_dangling_touch_silently_dropped :
    extract_touches none 12
      [(0, List.replicate 12 false), (1, List.replicate 12 false),
       (2, true :: List.replicate 11 false), (3, true :: List.replicate 11 false)] =
      some ([], []) := rfl

/-! ### C10: the release lookup never fails after a clean first row -/

theorem stepChannel_touch (cfg : Option ℚ) (row : ℕ) (t : ℚ) (ch : ℕ) (st : ScanState) :
    stepChannel cfg row t false true ch st = some
      { temp := fun c => if c = ch then some t else st.temp c,
        touches := st.touches,
        logs := if row == 1 && ch != 47 then st.logs ++ [LogEntry.firstTouch ch]
                else st.logs } := by
  rw [stepChannel]
  simp

theorem stepChannel_release (cfg : Option ℚ) (row : ℕ) (t : ℚ) (ch : ℕ)
    (st : ScanState) (t0 : ℚ) (h : st.temp ch = some t0) :
    stepChannel cfg row t true false ch st = some
      { temp := fun c => if c = ch then none else st.temp c,
        touches := if (handle_release cfg ch t0 (t - t0)).1
                   then st.touches ++ [⟨ch, t0, t - t0⟩] else st.touches,
        logs := st.logs ++ (handle_release cfg ch t0 (t - t0)).2 } := by
  rw [stepChannel, h]
  simp

theorem stepChannel_idle (cfg : Option ℚ) (row : ℕ) (t : ℚ) (b : Bool) (ch : ℕ)
    (st : ScanState) : stepChannel cfg row t b b ch st = some st := by
  cases b <;> (rw [stepChannel]; simp)

theorem stepChannel_spec (cfg : Option ℚ) (row : ℕ) (t : ℚ) (prev cur : Bool)
    (ch : ℕ) (st : ScanState) (h : (st.temp ch).isSome = prev) :
    ∃ st2, stepChannel cfg row t prev cur ch st = some st2 ∧
      (st2.temp ch).isSome = cur ∧ ∀ c, c ≠ ch → st2.temp c = st.temp c := by
  cases prev with
  | false =>
    cases cur with
    | true =>
      refine ⟨_, stepChannel_touch cfg row t ch st, ?_, ?_⟩
      · simp
      · intro c hc
        simp [hc]
    | false => exact ⟨st, stepChannel_idle cfg row t false ch st, h, fun _ _ => rfl⟩
  | true =>
    cases cur with
    | false =>
      obtain ⟨t0, ht0⟩ := Option.isSome_iff_exists.mp (by rw [h])
      refine ⟨_, stepChannel_release cfg row t ch st t0 ht0, ?_, ?_⟩
      · simp
      · intro c hc
        simp [hc]
    | true => exact ⟨st, stepChannel_idle cfg row t true ch st, h, fun _ _ => rfl⟩

theorem foldChannels_spec (cfg : Option ℚ) (row : ℕ) (t : ℚ)
    (prevBits curBits : List Bool) :
    ∀ (cs : List ℕ) (st : ScanState), cs.Nodup →
      (∀ ch ∈ cs, (st.temp ch).isSome = getBit prevBits ch) →
      ∃ st2, cs.foldlM (fun s ch => stepChannel cfg row t (getBit prevBits ch)
          (getBit curBits ch) ch s) st = some st2 ∧
        (∀ ch ∈ cs, (st2.temp ch).isSome = getBit curBits ch) ∧
        (∀ ch, ch ∉ cs → st2.temp ch = st.temp ch) := by
  intro cs
  induction cs with
  | nil =>
    intro st _ _
    exact ⟨st, rfl, by simp, fun _ _ => rfl⟩
  | cons c cs ih =>
    intro st hnd hinv
    obtain ⟨st1, hstep, hc1, hother⟩ := stepChannel_spec cfg row t _ _ c st
      (hinv c (List.mem_cons_self c cs))
    have hinv1 : ∀ ch ∈ cs, (st1.temp ch).isSome = getBit prevBits ch := by
      intro ch hch
      have hne : ch ≠ c := fun he => (List.nodup_cons.mp hnd).1 (he ▸ hch)
      rw [hother ch hne]
      exact hinv ch (List.mem_cons_of_mem c hch)
    obtain ⟨st2, hfold, hcur, hout⟩ := ih st1 (List.nodup_cons.mp hnd).2 hinv1
    refine ⟨st2, ?_, ?_, ?_⟩
    · rw [List.foldlM_cons, hstep]
      exact hfold
    · intro ch hch
      rcases List.mem_cons.mp hch with rfl | hch2
      · by_cases hmem : ch ∈ cs
        · exact hcur ch hmem
        · rw [hout ch hmem]
          exact hc1
      · exact hcur ch hch2
    · intro ch hch
      have h1 : ch ∉ cs := fun hm => hch (List.mem_cons_of_mem c hm)
      have h2 : ch ≠ c := fun he => hch (he ▸ List.mem_cons_self c cs)
      rw [hout ch h1, hother ch h2]

theorem scanRows_isSome (cfg : Option ℚ) (nch : ℕ) (start : ℚ) :
    ∀ (rest : List (ℚ × List Bool)) (row : ℕ) (prevBits : List Bool) (st : ScanState),
      (∀ ch ∈ List.range nch, (st.temp ch).isSome = getBit prevBits ch) →
      ∃ st2, scanRows cfg nch start row prevBits rest st = some st2 := by
  intro rest
  induction rest with
  | nil => intro row prev st _; exact ⟨st, rfl⟩
  | cons r rest ih =>
    intro row prev st hinv
    obtain ⟨st1, hrow, hcur, _⟩ := foldChannels_spec cfg row (r.1 - start) prev r.2
      (List.range nch) st (List.nodup_range nch) hinv
    have hsr : stepRow cfg nch row (r.1 - start) prev r.2 st = some st1 := hrow
    obtain ⟨st2, hrest⟩ := ih (row + 1) r.2 st1 hcur
    refine ⟨st2, ?_⟩
    rw [scanRows, hsr]
    exact hrest

/-- C10: if the first sample row has no touched bit on any scanned channel
(the property enforced by the fatal first-row check) then the extraction
scan never reaches the missing-key branch: the lookup and removal of the
open-touch start time always succeed and the scan returns a result. -/
theorem c10_release_lookup_safe (cfg : Option ℚ) (nch : ℕ) (r0 : ℚ × List Bool)
    (rest : List (ℚ × List Bool)) (h0 : ∀ ch, ch < nch → getBit r0.2 ch = false) :
    (extract_touches cfg nch (r0 :: rest)).isSome := by
  have hinv : ∀ ch ∈ List.range nch,
      ((⟨fun _ => none, [], []⟩ : ScanState).temp ch).isSome = getBit r0.2 ch := by
    intro ch hch
    exact (h0 ch (List.mem_range.mp hch)).symm
  obtain ⟨st2, h⟩ := scanRows_isSome cfg nch r0.1 rest 1 r0.2 ⟨fun _ => none, [], []⟩ hinv
  rw [extract_touches, h]
  rfl

theorem c10_release_lookup_safe_witness :
    (∀ ch, ch < 12 → getBit (List.replicate 12 false) ch = false) ∧
    (extract_touches none 12 [(0, List.replicate 12 false),
      (1, true :: List.replicate 11 false)]).isSome := by
  have h0 : ∀ ch, ch < 12 → getBit (List.replicate 12 false) ch = false := by decide
  exact ⟨h0, c10_release_lookup_safe none 12 (0, List.replicate 12 false)
    [(1, true :: List.replicate 11 false)] h0⟩

/-! ### C7: the second pass of the repeated-touch filter -/

theorem map_start_eq_of_perm_desc (l1 l2 : List TouchEvent)
    (hp : List.Perm l1 l2)
    (h1 : List.Pairwise (fun a b => b.start ≤ a.start) l1)
    (h2 : List.Pairwise (fun a b => b.start ≤ a.start) l2) :
    l1.map (fun e => e.start) = l2.map (fun e => e.start) := by
  have hp2 : List.Perm (l1.reverse.map (fun e => e.start))
      (l2.reverse.map (fun e => e.start)) :=
    (((List.reverse_perm l1).trans hp).trans (List.reverse_perm l2).symm).map _
  have hs1 : List.Sorted (· ≤ ·) (l1.reverse.map (fun e => e.start)) :=
    List.pairwise_map.mpr (List.pairwise_reverse.mpr h1)
  have hs2 : List.Sorted (· ≤ ·) (l2.reverse.map (fun e => e.start)) :=
    List.pairwise_map.mpr (List.pairwise_reverse.mpr h2)
  have heq := List.eq_of_perm_of_sorted hp2 hs1 hs2
  rw [List.map_reverse, List.map_reverse] at heq
  exact List.reverse_injective heq

theorem gapOpen_iff_map (w : ℚ) (l : List TouchEvent) :
    gapOpen w l ↔ List.Chain' (fun x y : ℚ => ¬(x - y ≤ w)) (l.map (fun e => e.start)) := by
  unfold gapOpen
  have h : List.Chain' (fun x y : ℚ => ¬(x - y ≤ w)) (l.map (fun e => e.start)) ↔
      List.Chain' (fun a b : TouchEvent => ¬(a.start - b.start ≤ w)) l :=
    List.chain'_map (fun e : TouchEvent => e.start)
  exact h.symm

theorem gapOpen_of_perm_desc (w : ℚ) (l1 l2 : List TouchEvent)
    (hp : List.Perm l1 l2)
    (h1 : List.Pairwise (fun a b => b.start ≤ a.start) l1)
    (h2 : List.Pairwise (fun a b => b.start ≤ a.start) l2)
    (hg : gapOpen w l1) : gapOpen w l2 := by
  rw [gapOpen_iff_map] at hg ⊢
  rw [← map_start_eq_of_perm_desc l1 l2 hp h1 h2]
  exact hg

theorem desc_sort_reverse_filter (l : List TouchEvent) (p : TouchEvent → Bool) :
    List.Pairwise (fun a b => b.start ≤ a.start) (((sortByTime l).reverse).filter p) :=
  (List.pairwise_reverse.mpr (sortByTime_sorted l)).filter p

theorem filter_flatten_channels (c : ℕ) :
    ∀ (cs : List ℕ) (g : ℕ → List TouchEvent), cs.Nodup →
      (∀ c2 ∈ cs, ∀ e ∈ g c2, e.channel = c2) →
      ((cs.map g).flatten).filter (fun e => e.channel == c) =
        if c ∈ cs then g c else [] := by
  intro cs
  induction cs with
  | nil => intro g _ _; simp
  | cons c2 cs ih =>
    intro g hnd hch
    simp only [List.map_cons, List.flatten_cons, List.filter_append]
    by_cases hc : c = c2
    · subst hc
      have hhead : (g c).filter (fun e => e.channel == c) = g c :=
        List.filter_eq_self.mpr (fun e he => by
          simp [hch c (List.mem_cons_self c cs) e he])
      have htail : ((cs.map g).flatten).filter (fun e => e.channel == c) = [] := by
        rw [ih g (List.nodup_cons.mp hnd).2
          (fun c3 h3 e he => hch c3 (List.mem_cons_of_mem c h3) e he)]
        rw [if_neg (List.nodup_cons.mp hnd).1]
      rw [hhead, htail, List.append_nil, if_pos (List.mem_cons_self c cs)]
    · have hhead : (g c2).filter (fun e => e.channel == c) = [] :=
        List.filter_eq_nil_iff.mpr (fun e he => by
          simp [hch c2 (List.mem_cons_self c2 cs) e he]
          exact fun hh => hc hh.symm)
      rw [hhead, List.nil_append,
        ih g (List.nodup_cons.mp hnd).2
          (fun c3 h3 e he => hch c3 (List.mem_cons_of_mem c2 h3) e he)]
      by_cases hmem : c ∈ cs
      · rw [if_pos hmem, if_pos (List.mem_cons_of_mem c2 hmem)]
      · rw [if_neg hmem, if_neg (by
          intro hm
          rcases List.mem_cons.mp hm with hh | hh
          · exact hc hh
          · exact hmem hh)]

theorem gapOpen_channel_slice (xs : List TouchEvent) (w : ℚ) (c : ℕ)
    (l2 : List TouchEvent)
    (hdesc : List.Pairwise (fun a b => b.start ≤ a.start) l2)
    (hperm : List.Perm l2
      ((repeated_touches xs w).1.filter (fun e => e.channel == c))) :
    gapOpen w l2 := by
  have hchprop : ∀ c2 ∈ repeatedChannels xs,
      ∀ e ∈ (Prod.fst ∘ fun c2 => processChannel w
        (((sortByTime (xs.filter (fun e =>
          decide (e.channel ∈ repeatedChannels xs)))).reverse).filter
          (fun e => e.channel == c2))) c2, e.channel = c2 := by
    intro c2 _ e he
    have hmem := rtLoop_kept_mem w _ _ e he
    have := List.mem_filter.mp hmem
    simpa using this.2
  have hfl := filter_flatten_channels c (repeatedChannels xs)
    (Prod.fst ∘ fun c2 => processChannel w
      (((sortByTime (xs.filter (fun e =>
        decide (e.channel ∈ repeatedChannels xs)))).reverse).filter
        (fun e => e.channel == c2)))
    (repeatedChannels_nodup xs) hchprop
  have hsf : List.Perm
      ((repeated_touches xs w).1.filter (fun e => e.channel == c))
      (((xs.filter (fun e => !(decide (e.channel ∈ repeatedChannels xs)))).filter
          (fun e => e.channel == c)) ++
        (if c ∈ repeatedChannels xs then
          (processChannel w
            (((sortByTime (xs.filter (fun e =>
              decide (e.channel ∈ repeatedChannels xs)))).reverse).filter
              (fun e => e.channel == c))).1
         else [])) := by
    have hkeq : (repeated_touches xs w).1 =
        sortByTime ((xs.filter (fun e =>
            !(decide (e.channel ∈ repeatedChannels xs)))) ++
          ((((repeatedChannels xs).map (fun c2 => processChannel w
              (((sortByTime (xs.filter (fun e =>
                decide (e.channel ∈ repeatedChannels xs)))).reverse).filter
                (fun e => e.channel == c2)))).map Prod.fst).flatten)) := by
      rw [repeated_touches_eq]
    rw [hkeq]
    refine ((sortByTime_perm _).filter _).trans ?_
    rw [List.filter_append, List.map_map, hfl]
    exact List.Perm.refl _
  by_cases hc : c ∈ repeatedChannels xs
  · have hA : (xs.filter (fun e =>
        !(decide (e.channel ∈ repeatedChannels xs)))).filter
        (fun e => e.channel == c) = [] :=
      filter_notmem_filter_channel xs (repeatedChannels xs) c hc
    rw [if_pos hc, hA, List.nil_append] at hsf
    have hkdesc : List.Pairwise (fun a b => b.start ≤ a.start)
        (processChannel w
          (((sortByTime (xs.filter (fun e =>
            decide (e.channel ∈ repeatedChannels xs)))).reverse).filter
            (fun e => e.channel == c))).1 :=
      rtLoop_kept_desc w _ _ (desc_sort_reverse_filter _ _)
    have hkgap : gapOpen w (processChannel w
        (((sortByTime (xs.filter (fun e =>
          decide (e.channel ∈ repeatedChannels xs)))).reverse).filter
          (fun e => e.channel == c))).1 :=
      rtLoop_kept_gapOpen w _ _
    exact gapOpen_of_perm_desc w _ l2 (hperm.trans hsf).symm hkdesc hdesc hkgap
  · have hcount : channelCount xs c ≤ 1 := by
      have hnc : ¬(2 ≤ channelCount xs c) :=
        fun hcc => hc ((mem_repeatedChannels xs c).mpr hcc)
      omega
    rw [if_neg hc, List.append_nil] at hsf
    have hlen : l2.length ≤ 1 := by
      have h1 := (hperm.trans hsf).length_eq
      have h2 : ((xs.filter (fun e =>
          !(decide (e.channel ∈ repeatedChannels xs)))).filter
          (fun e => e.channel == c)).length ≤ channelCount xs c := by
        have hsub : ((xs.filter (fun e =>
            !(decide (e.channel ∈ repeatedChannels xs)))).filter
            (fun e => e.channel == c)).Sublist
            (xs.filter (fun e => e.channel == c)) :=
          (List.filter_sublist xs).filter _
        exact hsub.length_le
      unfold channelCount at hcount h2
      omega
    exact gapOpen_of_short w l2 hlen

theorem repeated_touches_second_del_nil (xs : List TouchEvent) (w : ℚ) :
    (repeated_touches (repeated_touches xs w).1 w).2 = [] := by
  rw [repeated_touches_eq ((repeated_touches xs w).1) w]
  show sortByTime _ = []
  have hnil : ∀ l ∈ (((repeatedChannels (repeated_touches xs w).1).map
      (fun c => processChannel w
        (((sortByTime ((repeated_touches xs w).1.filter (fun e =>
          decide (e.channel ∈ repeatedChannels (repeated_touches xs w).1)))).reverse).filter
          (fun e => e.channel == c)))).map Prod.snd), l = [] := by
    intro l hl
    rw [List.mem_map] at hl
    obtain ⟨p, hp, rfl⟩ := hl
    rw [List.mem_map] at hp
    obtain ⟨c, hcmem, rfl⟩ := hp
    apply rtLoop_del_nil
    refine gapOpen_channel_slice xs w c _
      (desc_sort_reverse_filter _ _) ?_
    refine ((((List.reverse_perm _).trans (sortByTime_perm _))).filter _).trans ?_
    rw [filter_mem_filter_channel ((repeated_touches xs w).1)
      (repeatedChannels (repeated_touches xs w).1) c hcmem]
  rw [List.flatten_eq_nil_iff.mpr hnil]
  rfl

/-- C7 (amended): running the Repeated-Touch Filter a second time on the
survivor list of a first application yields an empty deletion set and a
survivor list that is a permutation of the first survivor list (the same
events; simultaneous events on different channels may be re-interleaved by
the re-grouping and re-sorting of the second pass, so list equality does
not hold in general). -/
theorem c7_repeated_touches_idempotent_upto_order (xs : List TouchEvent) (w : ℚ) :
    (repeated_touches (repeated_touches xs w).1 w).2 = [] ∧
    List.Perm (repeated_touches (repeated_touches xs w).1 w).1
      (repeated_touches xs w).1 := by
  have hdel := repeated_touches_second_del_nil xs w
  refine ⟨hdel, ?_⟩
  have hperm := repeated_touches_perm ((repeated_touches xs w).1) w
  rw [hdel, List.append_nil] at hperm
  exact hperm

theorem processChannel_pair_stop (w : ℚ) (a b : TouchEvent)
    (hgap : ¬(a.start - b.start ≤ w)) :
    processChannel w [a, b] = ([a, b], []) := by
  have hs : scanStep w [a, b] = ScanResult.stop := by
    rw [scanStep, if_neg hgap]
    rfl
  show rtLoop 2 w [a, b] = _
  rw [(by norm_num : (2 : ℕ) = 1 + 1), rtLoop_succ_stop 1 w [a, b] (by simp) hs]


theorem c7_first_pass_eval :
    repeated_touches [TouchEvent.mk 3 0 1, TouchEvent.mk 5 1 2,
        TouchEvent.mk 3 1 1, TouchEvent.mk 5 1 3] (3 / 20) =
      ([TouchEvent.mk 3 0 1, TouchEvent.mk 3 1 1, TouchEvent.mk 5 1 3],
       [TouchEvent.mk 5 1 2]) := by
  have hrc : repeatedChannels [TouchEvent.mk 3 0 1, TouchEvent.mk 5 1 2,
        TouchEvent.mk 3 1 1, TouchEvent.mk 5 1 3] = [3, 5] := rfl
  have hno : List.filter (fun e => !decide (e.channel ∈ [3, 5]))
      [TouchEvent.mk 3 0 1, TouchEvent.mk 5 1 2, TouchEvent.mk 3 1 1,
        TouchEvent.mk 5 1 3] = [] := rfl
  have hrt : List.filter (fun e => decide (e.channel ∈ [3, 5]))
      [TouchEvent.mk 3 0 1, TouchEvent.mk 5 1 2, TouchEvent.mk 3 1 1,
        TouchEvent.mk 5 1 3] =
      [TouchEvent.mk 3 0 1, TouchEvent.mk 5 1 2, TouchEvent.mk 3 1 1,
        TouchEvent.mk 5 1 3] := rfl
  have hsort : sortByTime [TouchEvent.mk 3 0 1, TouchEvent.mk 5 1 2,
      TouchEvent.mk 3 1 1, TouchEvent.mk 5 1 3] =
      [TouchEvent.mk 3 0 1, TouchEvent.mk 5 1 2, TouchEvent.mk 3 1 1,
        TouchEvent.mk 5 1 3] := by norm_num [sortByTime, insertT]
  have hrev : ([TouchEvent.mk 3 0 1, TouchEvent.mk 5 1 2, TouchEvent.mk 3 1 1,
      TouchEvent.mk 5 1 3] : List TouchEvent).reverse =
      [TouchEvent.mk 5 1 3, TouchEvent.mk 3 1 1, TouchEvent.mk 5 1 2,
        TouchEvent.mk 3 0 1] := rfl
  have hf3 : List.filter (fun e => e.channel == 3)
      [TouchEvent.mk 5 1 3, TouchEvent.mk 3 1 1, TouchEvent.mk 5 1 2,
        TouchEvent.mk 3 0 1] = [TouchEvent.mk 3 1 1, TouchEvent.mk 3 0 1] := rfl
  have hf5 : List.filter (fun e => e.channel == 5)
      [TouchEvent.mk 5 1 3, TouchEvent.mk 3 1 1, TouchEvent.mk 5 1 2,
        TouchEvent.mk 3 0 1] = [TouchEvent.mk 5 1 3, TouchEvent.mk 5 1 2] := rfl
  rw [repeated_touches_eq, hrc, hno, hrt, hsort, hrev]
  simp only [List.map_cons, List.map_nil, List.flatten_cons, List.flatten_nil,
    List.append_nil, List.nil_append]
  rw [hf3, hf5]
  rw [processChannel_pair_stop (3 / 20) (TouchEvent.mk 3 1 1) (TouchEvent.mk 3 0 1)
    (by norm_num)]
  rw [processChannel_pair (3 / 20) (TouchEvent.mk 5 1 3) (TouchEvent.mk 5 1 2)
    (by norm_num)]
  rw [if_neg (by norm_num)]
  simp only [List.cons_append, List.nil_append, List.append_nil]
  norm_num [sortByTime, insertT, Prod.mk.injEq]

theorem c7_second_pass_eval :
    repeated_touches [TouchEvent.mk 3 0 1, TouchEvent.mk 3 1 1, TouchEvent.mk 5 1 3]
        (3 / 20) =
      ([TouchEvent.mk 3 0 1, TouchEvent.mk 5 1 3, TouchEvent.mk 3 1 1], []) := by
  have hrc : repeatedChannels [TouchEvent.mk 3 0 1, TouchEvent.mk 3 1 1,
      TouchEvent.mk 5 1 3] = [3] := rfl
  have hno : List.filter (fun e => !decide (e.channel ∈ [3]))
      [TouchEvent.mk 3 0 1, TouchEvent.mk 3 1 1, TouchEvent.mk 5 1 3] =
      [TouchEvent.mk 5 1 3] := rfl
  have hrt : List.filter (fun e => decide (e.channel ∈ [3]))
      [TouchEvent.mk 3 0 1, TouchEvent.mk 3 1 1, TouchEvent.mk 5 1 3] =
      [TouchEvent.mk 3 0 1, TouchEvent.mk 3 1 1] := rfl
  have hsort : sortByTime [TouchEvent.mk 3 0 1, TouchEvent.mk 3 1 1] =
      [TouchEvent.mk 3 0 1, TouchEvent.mk 3 1 1] := by norm_num [sortByTime, insertT]
  have hrev : ([TouchEvent.mk 3 0 1, TouchEvent.mk 3 1 1] : List TouchEvent).reverse =
      [TouchEvent.mk 3 1 1, TouchEvent.mk 3 0 1] := rfl
  have hf3 : List.filter (fun e => e.channel == 3)
      [TouchEvent.mk 3 1 1, TouchEvent.mk 3 0 1] =
      [TouchEvent.mk 3 1 1, TouchEvent.mk 3 0 1] := rfl
  rw [repeated_touches_eq, hrc, hno, hrt, hsort, hrev]
  simp only [List.map_cons, List.map_nil, List.flatten_cons, List.flatten_nil,
    List.append_nil, List.nil_append]
  rw [hf3]
  rw [processChannel_pair_stop (3 / 20) (TouchEvent.mk 3 1 1) (TouchEvent.mk 3 0 1)
    (by norm_num)]
  norm_num [sortByTime, insertT, Prod.mk.injEq]

/-- C7 (counterexample): a time-ordered four-event list on channels 3 and 5
in which the repeated-touch collapse on channel 5 leaves a survivor that is
simultaneous with a channel-3 event.  The second application of the filter
deletes nothing, but re-groups and re-sorts the survivors, swapping the two
simultaneous events: the survivor list is not unchanged, refuting the claim
that a second application always returns the survivor list as a fixed
point. -/
theorem c7_counterexample :
    sortedByStart [TouchEvent.mk 3 0 1, TouchEvent.mk 5 1 2, TouchEvent.mk 3 1 1,
      TouchEvent.mk 5 1 3] ∧
    ¬((repeated_touches (repeated_touches [TouchEvent.mk 3 0 1, TouchEvent.mk 5 1 2,
          TouchEvent.mk 3 1 1, TouchEvent.mk 5 1 3] (3 / 20)).1 (3 / 20)).2 = [] ∧
      (repeated_touches (repeated_touches [TouchEvent.mk 3 0 1, TouchEvent.mk 5 1 2,
          TouchEvent.mk 3 1 1, TouchEvent.mk 5 1 3] (3 / 20)).1 (3 / 20)).1 =
        (repeated_touches [TouchEvent.mk 3 0 1, TouchEvent.mk 5 1 2,
          TouchEvent.mk 3 1 1, TouchEvent.mk 5 1 3] (3 / 20)).1) := by
  constructor
  · norm_num [sortedByStart, List.pairwise_cons]
  · rintro ⟨-, heq⟩
    have hk1 : (repeated_touches [TouchEvent.mk 3 0 1, TouchEvent.mk 5 1 2,
        TouchEvent.mk 3 1 1, TouchEvent.mk 5 1 3] (3 / 20)).1 =
        [TouchEvent.mk 3 0 1, TouchEvent.mk 3 1 1, TouchEvent.mk 5 1 3] := by
      rw [c7_first_pass_eval]
    rw [hk1, c7_second_pass_eval] at heq
    simp only [List.cons.injEq, TouchEvent.mk.injEq] at heq
    exact absurd heq.2.1.1 (by norm_num)
